import Mathlib

/-!
Verification of the DNS resolution cache (`src/dns/cache.rs`) and the
hickory resolver adapter (`src/dns/hickory.rs`).

Modelling conventions:
* instants and durations are natural numbers; every cache operation takes
  the current time `now` explicitly (the Rust code reads `Instant::now()`
  once per operation).
* The `HashMap<String, CachedEntry>` store is modelled as an association
  list `List (String × CachedEntry)`; `keys().next()` is the head of the
  list (the map iteration order is arbitrary, the head is one refinement
  of that choice).  States produced by the real map have pairwise distinct
  keys; theorems that need this carry a `Nodup` hypothesis on the keys.
* The adapter's external lookup (`resolver.lookup_ip(...).await`) is an
  input to `resolve`, given as an already-determined `LookupOutcome`.
-/

/-- Model of `std::net::SocketAddr`: an address with a port. -/
structure SocketAddr where
  ip : Nat
  port : Nat
deriving DecidableEq, Repr

/-- Default TTL for cached DNS entries (60 seconds), `DEFAULT_DNS_TTL`. -/
def DEFAULT_DNS_TTL : Nat := 60

/-- Maximum number of entries in the cache, `DEFAULT_MAX_ENTRIES`. -/
def DEFAULT_MAX_ENTRIES : Nat := 1000

/-- A cached DNS resolution result with expiration time (`CachedEntry`). -/
structure CachedEntry where
  addrs : List SocketAddr
  expires_at : Nat
deriving DecidableEq, Repr

/-- `CachedEntry::new`: `expires_at = Instant::now() + ttl`. -/
def CachedEntry.new (now : Nat) (addrs : List SocketAddr) (ttl : Nat) : CachedEntry :=
  { addrs := addrs, expires_at := now + ttl }

/-- `CachedEntry::is_expired`: `Instant::now() >= self.expires_at`. -/
def CachedEntry.is_expired (now : Nat) (e : CachedEntry) : Bool :=
  e.expires_at ≤ now

/-- The store underlying the cache: `HashMap<String, CachedEntry>` as an
association list. -/
abbrev Store := List (String × CachedEntry)

/-- `HashMap::get`: the entry stored under `host`, if any. -/
def Store.find? (host : String) : Store → Option CachedEntry
  | [] => none
  | (k, e) :: rest => if k = host then some e else Store.find? host rest

/-- `HashMap::remove`: drop the entry stored under `host`. -/
def Store.erase (host : String) (s : Store) : Store :=
  s.filter (fun p => p.1 ≠ host)

/-- `HashMap::insert`: overwrite the entry under `host` in place if present,
otherwise add a binding for `host`. -/
def Store.insertEntry (host : String) (e : CachedEntry) : Store → Store
  | [] => [(host, e)]
  | (k, e') :: rest =>
    if k = host then (host, e) :: rest
    else (k, e') :: Store.insertEntry host e rest

/-- `HashMap::retain`, specialised to the sweep in `insert_with_ttl` and
`cleanup_expired`: keep exactly the entries that are not expired. -/
def Store.sweep (now : Nat) (s : Store) : Store :=
  s.filter (fun p => ! p.2.is_expired now)

/-- `DnsCacheInner`: the data behind the mutex. -/
structure DnsCacheInner where
  cache : Store
  max_entries : Nat
deriving DecidableEq, Repr

/-- `DnsCache::len` on the inner data: number of entries, expired included. -/
def DnsCacheInner.len (c : DnsCacheInner) : Nat :=
  c.cache.length

/-- `DnsCache::get`: returns the updated inner state and the result.
A live entry is returned cloned; an expired entry is removed before
returning `none`; a clean miss returns `none`. -/
def DnsCacheInner.get (now : Nat) (host : String) (c : DnsCacheInner) :
    DnsCacheInner × Option (List SocketAddr) :=
  match Store.find? host c.cache with
  | some entry =>
    if ! entry.is_expired now then
      (c, some entry.addrs)
    else
      ({ c with cache := Store.erase host c.cache }, none)
  | none => (c, none)

/-- The eviction block at the top of `DnsCache::insert_with_ttl`: when the
cache is full (`cache.len() >= max_entries`), first sweep expired entries
(`retain`); if still full, remove the entry under the first key the map
iteration yields (`keys().next()`), if any. -/
def DnsCacheInner.evictIfFull (now : Nat) (c : DnsCacheInner) : Store :=
  if c.max_entries ≤ c.cache.length then
    if c.max_entries ≤ (Store.sweep now c.cache).length then
      match (Store.sweep now c.cache).head? with
      | some p => Store.erase p.1 (Store.sweep now c.cache)
      | none => Store.sweep now c.cache
    else Store.sweep now c.cache
  else c.cache

/-- `DnsCache::insert_with_ttl`: run the eviction block, then insert the
new entry, overwriting any entry already stored under `host`. -/
def DnsCacheInner.insert_with_ttl (now : Nat) (host : String)
    (addrs : List SocketAddr) (ttl : Nat) (c : DnsCacheInner) : DnsCacheInner :=
  { c with
    cache := Store.insertEntry host (CachedEntry.new now addrs ttl)
      (DnsCacheInner.evictIfFull now c) }

/-- `DnsCache::clear`: remove all entries. -/
def DnsCacheInner.clear (c : DnsCacheInner) : DnsCacheInner :=
  { c with cache := [] }

/-- `DnsCache::cleanup_expired`: sweep expired entries, returning the new
state together with the count `before - after` of removed entries. -/
def DnsCacheInner.cleanup_expired (now : Nat) (c : DnsCacheInner) :
    DnsCacheInner × Nat :=
  let before := c.cache.length
  let cache1 := Store.sweep now c.cache
  ({ c with cache := cache1 }, before - cache1.length)

/-- `DnsCache`: the shared handle, carrying the configured default TTL. -/
structure DnsCache where
  inner : DnsCacheInner
  default_ttl : Nat
deriving DecidableEq, Repr

/-- `DnsCache::with_config`. -/
def DnsCache.with_config (default_ttl : Nat) (max_entries : Nat) : DnsCache :=
  { inner := { cache := [], max_entries := max_entries }, default_ttl := default_ttl }

/-- `DnsCache::new`. -/
def DnsCache.new : DnsCache :=
  DnsCache.with_config DEFAULT_DNS_TTL DEFAULT_MAX_ENTRIES

/-- `DnsCache::insert`: insert with the configured default TTL. -/
def DnsCache.insert (now : Nat) (host : String) (addrs : List SocketAddr)
    (c : DnsCache) : DnsCache :=
  { c with inner := DnsCacheInner.insert_with_ttl now host addrs c.default_ttl c.inner }

/-- Opaque error carried by a failed external lookup. -/
structure LookupError where
  code : Nat
deriving DecidableEq, Repr

/-- Model of Rust `Result`, the outcome of the external lookup. -/
inductive LookupOutcome (ε α : Type) where
  | ok (val : α) : LookupOutcome ε α
  | err (e : ε) : LookupOutcome ε α
deriving DecidableEq, Repr

/-- `HickoryDnsResolver::resolve` (`src/dns/hickory.rs`): check the cache
first; on a hit return the cached addresses (each rebuilt as
`SocketAddr::new(ip, 0)`); on a miss consult the external lookup outcome;
on error propagate it; on success map each IP to `SocketAddr::new(ip, 0)`,
cache the list with the default TTL only when it is non-empty, and return
it. Returns the updated cache state and the result. -/
def HickoryDnsResolver.resolve (now : Nat) (host : String) (default_ttl : Nat)
    (lookup : LookupOutcome LookupError (List Nat)) (s : DnsCacheInner) :
    DnsCacheInner × LookupOutcome LookupError (List SocketAddr) :=
  let hit := DnsCacheInner.get now host s
  match hit.2 with
  | some cached_addrs =>
    (hit.1, LookupOutcome.ok (cached_addrs.map (fun a => SocketAddr.mk a.ip 0)))
  | none =>
    match lookup with
    | LookupOutcome.err e => (hit.1, LookupOutcome.err e)
    | LookupOutcome.ok ips =>
      let socket_addrs := ips.map (fun ip => SocketAddr.mk ip 0)
      let s2 :=
        if socket_addrs.isEmpty then hit.1
        else DnsCacheInner.insert_with_ttl now host socket_addrs default_ttl hit.1
      (s2, LookupOutcome.ok socket_addrs)

/-- Every entry present in the store has a non-empty address list. -/
def EntriesNonEmpty (c : DnsCacheInner) : Prop :=
  ∀ p ∈ c.cache, p.2.addrs ≠ []

instance (c : DnsCacheInner) : Decidable (EntriesNonEmpty c) := by
  unfold EntriesNonEmpty
  infer_instance

/-- The list of keys of a store, in iteration order. -/
def Store.keys (s : Store) : List String :=
  s.map Prod.fst

/-- States reachable from a freshly constructed cache under the adapter
discipline: `insert_with_ttl` is only ever invoked with a non-empty
address list (as `HickoryDnsResolver::resolve` guarantees), while `get`,
`cleanup_expired` and `clear` are unrestricted. -/
inductive ReachableNE : DnsCacheInner → Prop
  | init (max_entries : Nat) : ReachableNE { cache := [], max_entries := max_entries }
  | get_step (now : Nat) (host : String) {s : DnsCacheInner} :
      ReachableNE s → ReachableNE (DnsCacheInner.get now host s).1
  | insert_step (now : Nat) (host : String) (addrs : List SocketAddr)
      (ttl : Nat) {s : DnsCacheInner} (hne : addrs ≠ []) :
      ReachableNE s → ReachableNE (DnsCacheInner.insert_with_ttl now host addrs ttl s)
  | cleanup_step (now : Nat) {s : DnsCacheInner} :
      ReachableNE s → ReachableNE (DnsCacheInner.cleanup_expired now s).1
  | clear_step {s : DnsCacheInner} : ReachableNE s → ReachableNE s.clear

/-- The insertion procedure in the words of the spec (§4.1) and claim C5:
when the store holds fewer than `max_entries` entries, just insert,
overwriting the key's own entry at most; otherwise first remove every
expired entry, then, only if the count is still at or above `max_entries`,
remove exactly one further entry (the arbitrary choice is fixed to the
same first-key choice the code makes) — no behaviour exists (`none`) when
no entry remains to be removed — and finally insert the new entry. -/
def insertPerClaim (now : Nat) (host : String) (addrs : List SocketAddr)
    (ttl : Nat) (c : DnsCacheInner) : Option DnsCacheInner :=
  if c.cache.length < c.max_entries then
    some { c with cache := Store.insertEntry host (CachedEntry.new now addrs ttl) c.cache }
  else
    if c.max_entries ≤ (Store.sweep now c.cache).length then
      match (Store.sweep now c.cache).head? with
      | some p =>
        some { c with
          cache := Store.insertEntry host (CachedEntry.new now addrs ttl)
            (Store.erase p.1 (Store.sweep now c.cache)) }
      | none => none
    else
      some { c with
        cache := Store.insertEntry host (CachedEntry.new now addrs ttl)
          (Store.sweep now c.cache) }

theorem Store.find?_eq_none_iff (host : String) (s : Store) :
    Store.find? host s = none ↔ host ∉ Store.keys s := by
  induction s with
  | nil => simp [Store.find?, Store.keys]
  | cons p rest ih =>
    obtain ⟨k, e⟩ := p
    by_cases hk : k = host
    · subst hk
      simp [Store.find?, Store.keys]
    · simp [Store.find?, Store.keys, hk, Ne.symm hk] at ih ⊢
      exact ih

theorem Store.erase_cons_self (k : String) (e : CachedEntry) (t : Store) :
    Store.erase k ((k, e) :: t) = Store.erase k t := by
  simp [Store.erase]

theorem Store.erase_cons_of_ne (host k : String) (e : CachedEntry) (t : Store)
    (hk : k ≠ host) : Store.erase host ((k, e) :: t) = (k, e) :: Store.erase host t := by
  simp [Store.erase, hk]

theorem Store.find?_insertEntry_self (host : String) (e : CachedEntry) (s : Store) :
    Store.find? host (Store.insertEntry host e s) = some e := by
  induction s with
  | nil => simp [Store.insertEntry, Store.find?]
  | cons p rest ih =>
    obtain ⟨k, e'⟩ := p
    by_cases hk : k = host
    · simp [Store.insertEntry, hk, Store.find?]
    · simp [Store.insertEntry, hk, Store.find?, ih]

theorem Store.find?_erase_self (host : String) (s : Store) :
    Store.find? host (Store.erase host s) = none := by
  induction s with
  | nil => simp [Store.erase, Store.find?]
  | cons p rest ih =>
    obtain ⟨k, e⟩ := p
    by_cases hk : k = host
    · subst hk
      simpa [Store.erase] using ih
    · simpa [Store.erase, Store.find?, hk] using ih

theorem Store.length_sweep_le (now : Nat) (s : Store) :
    (Store.sweep now s).length ≤ s.length :=
  List.length_filter_le _ s

theorem Store.length_insertEntry_le (host : String) (e : CachedEntry) (s : Store) :
    (Store.insertEntry host e s).length ≤ s.length + 1 := by
  induction s with
  | nil => simp [Store.insertEntry]
  | cons p rest ih =>
    obtain ⟨k, e'⟩ := p
    by_cases hk : k = host
    · simp [Store.insertEntry, hk]
    · simpa [Store.insertEntry, hk] using ih

theorem Store.mem_keys_insertEntry (x host : String) (e : CachedEntry) (s : Store)
    (hx : x ∈ (Store.insertEntry host e s).keys) : x = host ∨ x ∈ s.keys := by
  induction s with
  | nil => simpa [Store.insertEntry, Store.keys] using hx
  | cons p rest ih =>
    obtain ⟨k, e'⟩ := p
    by_cases hk : k = host
    · subst hk
      rcases (by simpa [Store.insertEntry, Store.keys] using hx) with h | h
      · exact Or.inl h
      · exact Or.inr (by simp [Store.keys, h])
    · rcases (by simpa [Store.insertEntry, hk, Store.keys] using hx) with h | h
      · exact Or.inr (by simp [Store.keys, h])
      · rcases ih (by simpa [Store.keys] using h) with h' | h'
        · exact Or.inl h'
        · exact Or.inr (by simp [Store.keys] at h' ⊢; exact Or.inr h')

theorem Store.mem_insertEntry (q : String × CachedEntry) (host : String)
    (e : CachedEntry) (s : Store) (hq : q ∈ Store.insertEntry host e s) :
    q = (host, e) ∨ q ∈ s := by
  induction s with
  | nil => simpa [Store.insertEntry] using hq
  | cons p rest ih =>
    obtain ⟨k, e'⟩ := p
    by_cases hk : k = host
    · subst hk
      rcases (by simpa [Store.insertEntry] using hq) with h | h
      · exact Or.inl h
      · exact Or.inr (by simp [h])
    · rcases (by simpa [Store.insertEntry, hk] using hq) with h | h
      · exact Or.inr (by simp [h])
      · rcases ih h with h' | h'
        · exact Or.inl h'
        · exact Or.inr (by simp [h'])

theorem Store.length_erase_head_le (p : String × CachedEntry) (t : Store) :
    (Store.erase p.1 (p :: t)).length ≤ t.length := by
  obtain ⟨k, e⟩ := p
  simpa [Store.erase] using List.length_filter_le _ t

theorem Store.keys_sweep_sublist (now : Nat) (s : Store) :
    (Store.sweep now s).keys.Sublist s.keys :=
  List.Sublist.map Prod.fst (List.filter_sublist s)

theorem Store.keys_erase_sublist (host : String) (s : Store) :
    (Store.erase host s).keys.Sublist s.keys :=
  List.Sublist.map Prod.fst (List.filter_sublist s)

theorem Store.keys_insertEntry_nodup (host : String) (e : CachedEntry) (s : Store)
    (h : s.keys.Nodup) : (Store.insertEntry host e s).keys.Nodup := by
  induction s with
  | nil => simp [Store.insertEntry, Store.keys]
  | cons p rest ih =>
    obtain ⟨k, e'⟩ := p
    simp only [Store.keys, List.map_cons, List.nodup_cons] at h
    by_cases hk : k = host
    · subst hk
      simpa [Store.insertEntry, Store.keys] using h
    · simp only [Store.insertEntry, hk, if_false, Store.keys, List.map_cons, List.nodup_cons]
      refine ⟨?_, ih h.2⟩
      intro hmem
      rcases Store.mem_keys_insertEntry k host e rest hmem with h' | h'
      · exact hk h'
      · exact h.1 (by simpa [Store.keys] using h')

theorem Store.length_erase_of_found (host : String) (e : CachedEntry) (s : Store)
    (hnd : s.keys.Nodup) (h : Store.find? host s = some e) :
    s.length = (Store.erase host s).length + 1 := by
  induction s with
  | nil => simp [Store.find?] at h
  | cons p rest ih =>
    obtain ⟨k, e'⟩ := p
    simp only [Store.keys, List.map_cons, List.nodup_cons] at hnd
    by_cases hk : k = host
    · subst hk
      have hrest : Store.erase k rest = rest := by
        refine List.filter_eq_self.mpr ?_
        intro q hq
        have : q.1 ≠ k := by
          intro heq
          exact hnd.1 (heq ▸ List.mem_map_of_mem Prod.fst hq)
        simpa using this
      rw [Store.erase_cons_self, hrest]
      simp
    · simp only [Store.find?, hk, if_false] at h
      have := ih hnd.2 h
      rw [Store.erase_cons_of_ne host k e' rest hk]
      simpa using this

theorem Store.length_erase_head_lt (s : Store) (p : String × CachedEntry)
    (h : s.head? = some p) : (Store.erase p.1 s).length < s.length := by
  cases s with
  | nil => simp at h
  | cons q t =>
    have hq : q = p := by simpa using h
    subst hq
    exact Nat.lt_succ_of_le (Store.length_erase_head_le q t)

theorem DnsCacheInner.evictIfFull_keys_sublist (now : Nat) (c : DnsCacheInner) :
    (DnsCacheInner.evictIfFull now c).keys.Sublist c.cache.keys := by
  unfold DnsCacheInner.evictIfFull
  split
  · split
    · split
      · exact (Store.keys_erase_sublist _ _).trans (Store.keys_sweep_sublist now c.cache)
      · exact Store.keys_sweep_sublist now c.cache
    · exact Store.keys_sweep_sublist now c.cache
  · exact List.Sublist.refl _

theorem DnsCacheInner.evictIfFull_length_lt (now : Nat) (c : DnsCacheInner)
    (hmax : 1 ≤ c.max_entries) (hlen : c.cache.length ≤ c.max_entries) :
    (DnsCacheInner.evictIfFull now c).length < c.max_entries := by
  unfold DnsCacheInner.evictIfFull
  split
  · split
    · split
      · rename_i h1 h2 p heq
        have hle : (Store.sweep now c.cache).length ≤ c.max_entries :=
          le_trans (Store.length_sweep_le now c.cache) hlen
        exact lt_of_lt_of_le (Store.length_erase_head_lt _ p heq) hle
      · rename_i heq
        have hnil : Store.sweep now c.cache = [] := by simpa using heq
        rw [hnil]
        simp
        omega
    · rename_i h1 h2
      exact Nat.lt_of_not_le h2
  · rename_i h1
    exact Nat.lt_of_not_le h1

theorem DnsCacheInner.insert_with_ttl_len_le (now : Nat) (host : String)
    (addrs : List SocketAddr) (ttl : Nat) (c : DnsCacheInner)
    (hmax : 1 ≤ c.max_entries) (hlen : c.len ≤ c.max_entries) :
    (DnsCacheInner.insert_with_ttl now host addrs ttl c).len ≤ c.max_entries := by
  have h1 := DnsCacheInner.evictIfFull_length_lt now c hmax hlen
  have h2 := Store.length_insertEntry_le host (CachedEntry.new now addrs ttl)
    (DnsCacheInner.evictIfFull now c)
  unfold DnsCacheInner.insert_with_ttl
  unfold DnsCacheInner.len at *
  simpa using le_trans h2 (by omega)

theorem DnsCacheInner.insert_with_ttl_keys_nodup (now : Nat) (host : String)
    (addrs : List SocketAddr) (ttl : Nat) (c : DnsCacheInner)
    (h : c.cache.keys.Nodup) :
    (DnsCacheInner.insert_with_ttl now host addrs ttl c).cache.keys.Nodup := by
  unfold DnsCacheInner.insert_with_ttl
  exact Store.keys_insertEntry_nodup _ _ _
    (h.sublist (DnsCacheInner.evictIfFull_keys_sublist now c))

theorem Store.sweep_idem (now : Nat) (s : Store) :
    Store.sweep now (Store.sweep now s) = Store.sweep now s := by
  simp [Store.sweep, List.filter_filter]

theorem Store.mem_of_mem_erase (q : String × CachedEntry) (host : String) (s : Store)
    (h : q ∈ Store.erase host s) : q ∈ s :=
  (List.mem_filter.mp h).1

theorem Store.mem_of_mem_sweep (q : String × CachedEntry) (now : Nat) (s : Store)
    (h : q ∈ Store.sweep now s) : q ∈ s :=
  (List.mem_filter.mp h).1

theorem DnsCacheInner.mem_of_mem_evictIfFull (q : String × CachedEntry) (now : Nat)
    (c : DnsCacheInner) (h : q ∈ DnsCacheInner.evictIfFull now c) : q ∈ c.cache := by
  unfold DnsCacheInner.evictIfFull at h
  split at h
  · split at h
    · split at h
      · exact Store.mem_of_mem_sweep q now c.cache
          (Store.mem_of_mem_erase q _ _ h)
      · exact Store.mem_of_mem_sweep q now c.cache h
    · exact Store.mem_of_mem_sweep q now c.cache h
  · exact h

theorem DnsCacheInner.get_eq_of_absent (now : Nat) (host : String) (s : DnsCacheInner)
    (h : Store.find? host s.cache = none) : DnsCacheInner.get now host s = (s, none) := by
  unfold DnsCacheInner.get
  rw [h]

theorem DnsCacheInner.get_none_find? (now : Nat) (host : String) (s : DnsCacheInner)
    (h : (DnsCacheInner.get now host s).2 = none) :
    Store.find? host (DnsCacheInner.get now host s).1.cache = none := by
  unfold DnsCacheInner.get at h ⊢
  cases hf : Store.find? host s.cache with
  | none => simpa using hf
  | some entry =>
    by_cases hexp : entry.is_expired now
    · simpa [hexp] using Store.find?_erase_self host s.cache
    · simp [hf, hexp] at h

theorem EntriesNonEmpty_get (now : Nat) (host : String) (s : DnsCacheInner)
    (h : EntriesNonEmpty s) : EntriesNonEmpty (DnsCacheInner.get now host s).1 := by
  unfold DnsCacheInner.get
  cases hf : Store.find? host s.cache with
  | none => exact h
  | some entry =>
    by_cases hexp : entry.is_expired now
    · simp only [hexp, Bool.not_true, if_false]
      intro q hq
      exact h q (Store.mem_of_mem_erase q host s.cache hq)
    · simp only [hexp, Bool.not_false, if_true]
      exact h

theorem EntriesNonEmpty_insert (now : Nat) (host : String)
    (addrs : List SocketAddr) (ttl : Nat) (s : DnsCacheInner)
    (hne : addrs ≠ []) (h : EntriesNonEmpty s) :
    EntriesNonEmpty (DnsCacheInner.insert_with_ttl now host addrs ttl s) := by
  unfold DnsCacheInner.insert_with_ttl
  intro q hq
  rcases Store.mem_insertEntry q host (CachedEntry.new now addrs ttl) _ hq with h' | h'
  · subst h'
    simpa [CachedEntry.new] using hne
  · exact h q (DnsCacheInner.mem_of_mem_evictIfFull q now s h')

theorem EntriesNonEmpty_cleanup (now : Nat) (s : DnsCacheInner)
    (h : EntriesNonEmpty s) :
    EntriesNonEmpty (DnsCacheInner.cleanup_expired now s).1 := by
  unfold DnsCacheInner.cleanup_expired
  intro q hq
  exact h q (Store.mem_of_mem_sweep q now s.cache hq)

/-- C1 counterexample: with `max_entries = 0` (a legal construction
parameter) a single insert into the empty cache leaves `len() = 1`,
which exceeds `max_entries`. -/
theorem C1_counterexample_len_exceeds_max :
    ({ cache := [], max_entries := 0 } : DnsCacheInner).max_entries <
      (DnsCacheInner.insert_with_ttl 0 "a" [SocketAddr.mk 1 80] 5
        { cache := [], max_entries := 0 }).len := by
  decide

/-- C1 (amended): for every cache whose `max_entries` is at least 1 and
every state of the store with `len() ≤ max_entries` (which covers every
state such a cache can reach from construction), after any single call to
`insert_with_ttl` — and hence to `insert`, which delegates to it with the
default TTL — `len()` is at most `max_entries`. -/
theorem C1_insert_respects_capacity (now : Nat) (host : String)
    (addrs : List SocketAddr) (ttl dttl : Nat) (c : DnsCacheInner)
    (hmax : 1 ≤ c.max_entries) (hlen : c.len ≤ c.max_entries) :
    (DnsCacheInner.insert_with_ttl now host addrs ttl c).len ≤ c.max_entries ∧
    (DnsCache.insert now host addrs { inner := c, default_ttl := dttl }).inner.len
      ≤ c.max_entries :=
  ⟨DnsCacheInner.insert_with_ttl_len_le now host addrs ttl c hmax hlen,
   DnsCacheInner.insert_with_ttl_len_le now host addrs dttl c hmax hlen⟩

/-- Witness for C1 at a concrete full cache of capacity 1. -/
theorem C1_witness :
    (DnsCacheInner.insert_with_ttl 0 "b" [SocketAddr.mk 2 2] 5
      { cache := [("a", CachedEntry.mk [SocketAddr.mk 1 1] 10)], max_entries := 1 }).len
        ≤ 1 ∧
    (DnsCache.insert 0 "b" [SocketAddr.mk 2 2]
      ⟨⟨[("a", CachedEntry.mk [SocketAddr.mk 1 1] 10)], 1⟩, 7⟩).inner.len ≤ 1 :=
  C1_insert_respects_capacity 0 "b" [SocketAddr.mk 2 2] 5 7
    { cache := [("a", CachedEntry.mk [SocketAddr.mk 1 1] 10)], max_entries := 1 }
    (by decide) (by decide)

/-- C2 counterexample: `insert_with_ttl` itself never checks the address
list, so calling it with an empty list creates an entry whose address
list is empty. -/
theorem C2_counterexample_empty_addrs_cached :
    ¬ EntriesNonEmpty (DnsCacheInner.insert_with_ttl 0 "a" [] 60
      { cache := [], max_entries := 1000 }) := by
  decide

/-- C2 (amended): every cache state reachable from construction under the
adapter discipline — inserts only ever carry a non-empty address list, as
`HickoryDnsResolver::resolve` guarantees — has only entries with a
non-empty address list.  The cache itself does not enforce this: its
`insert` creates an empty-list entry when handed one. -/
theorem C2_reachable_entries_nonempty (s : DnsCacheInner) (h : ReachableNE s) :
    EntriesNonEmpty s := by
  induction h with
  | init m => intro q hq; simp at hq
  | get_step now host _ ih => exact EntriesNonEmpty_get now host _ ih
  | insert_step now host addrs ttl hne _ ih =>
    exact EntriesNonEmpty_insert now host addrs ttl _ hne ih
  | cleanup_step now _ ih => exact EntriesNonEmpty_cleanup now _ ih
  | clear_step _ ih => intro q hq; simp [DnsCacheInner.clear] at hq

/-- Witness for C2 at a concrete reachable state. -/
theorem C2_witness :
    EntriesNonEmpty (DnsCacheInner.insert_with_ttl 0 "a" [SocketAddr.mk 1 1] 60
      { cache := [], max_entries := 5 }) :=
  C2_reachable_entries_nonempty _
    (ReachableNE.insert_step 0 "a" [SocketAddr.mk 1 1] 60 (by decide)
      (ReachableNE.init 5))

theorem DnsCacheInner.get_eq_of_live (now : Nat) (host : String)
    (s : DnsCacheInner) (entry : CachedEntry)
    (hf : Store.find? host s.cache = some entry)
    (hl : entry.is_expired now = false) :
    DnsCacheInner.get now host s = (s, some entry.addrs) := by
  unfold DnsCacheInner.get
  rw [hf]
  simp [hl]

/-- C3: for every key, non-empty address list and TTL `t > 0`, an
`insert_with_ttl` followed immediately by `get` (same `now`) returns
exactly the inserted list, element for element and in order. -/
theorem C3_hit_after_insert (now : Nat) (host : String)
    (addrs : List SocketAddr) (ttl : Nat) (s : DnsCacheInner)
    (_hne : addrs ≠ []) (ht : 0 < ttl) :
    (DnsCacheInner.get now host
      (DnsCacheInner.insert_with_ttl now host addrs ttl s)).2 = some addrs := by
  have hf : Store.find? host (DnsCacheInner.insert_with_ttl now host addrs ttl s).cache
      = some (CachedEntry.new now addrs ttl) :=
    Store.find?_insertEntry_self host (CachedEntry.new now addrs ttl)
      (DnsCacheInner.evictIfFull now s)
  have hl : (CachedEntry.new now addrs ttl).is_expired now = false := by
    show decide (now + ttl ≤ now) = false
    simp only [decide_eq_false_iff_not]
    omega
  rw [DnsCacheInner.get_eq_of_live now host _ _ hf hl]
  simp [CachedEntry.new]

/-- Witness for C3 at a concrete input. -/
theorem C3_witness :
    (DnsCacheInner.get 4 "k"
      (DnsCacheInner.insert_with_ttl 4 "k" [SocketAddr.mk 1 80, SocketAddr.mk 2 443] 3
        { cache := [], max_entries := 2 })).2
      = some [SocketAddr.mk 1 80, SocketAddr.mk 2 443] :=
  C3_hit_after_insert 4 "k" [SocketAddr.mk 1 80, SocketAddr.mk 2 443] 3
    { cache := [], max_entries := 2 } (by decide) (by decide)

theorem DnsCacheInner.get_eq_of_expired (now : Nat) (host : String)
    (s : DnsCacheInner) (entry : CachedEntry)
    (hf : Store.find? host s.cache = some entry)
    (hexp : entry.is_expired now = true) :
    DnsCacheInner.get now host s
      = ({ s with cache := Store.erase host s.cache }, none) := by
  unfold DnsCacheInner.get
  rw [hf]
  simp [hexp]

/-- C4: inserting `(host, addrs)` with TTL `ttl` at `now0` and calling
`get` at a strictly later time `now1 > now0 + ttl` returns `none`,
removes the entry from the store, and leaves `len()` one less than it was
after the insert.  The `Nodup` hypothesis states that the store, as a
`HashMap`, has pairwise distinct keys. -/
theorem C4_expiry_get_removes (now0 now1 : Nat) (host : String)
    (addrs : List SocketAddr) (ttl : Nat) (s : DnsCacheInner)
    (hnd : s.cache.keys.Nodup) (hlate : now0 + ttl < now1) :
    (DnsCacheInner.get now1 host (DnsCacheInner.insert_with_ttl now0 host addrs ttl s)).2
        = none ∧
    Store.find? host
      (DnsCacheInner.get now1 host
        (DnsCacheInner.insert_with_ttl now0 host addrs ttl s)).1.cache = none ∧
    (DnsCacheInner.get now1 host (DnsCacheInner.insert_with_ttl now0 host addrs ttl s)).1.len
        = (DnsCacheInner.insert_with_ttl now0 host addrs ttl s).len - 1 := by
  set s1 := DnsCacheInner.insert_with_ttl now0 host addrs ttl s with hs1
  have hf : Store.find? host s1.cache = some (CachedEntry.new now0 addrs ttl) :=
    Store.find?_insertEntry_self host _ (DnsCacheInner.evictIfFull now0 s)
  have hexp : (CachedEntry.new now0 addrs ttl).is_expired now1 = true := by
    show decide (now0 + ttl ≤ now1) = true
    simp only [decide_eq_true_eq]
    omega
  have hnd1 : s1.cache.keys.Nodup :=
    DnsCacheInner.insert_with_ttl_keys_nodup now0 host addrs ttl s hnd
  have hlen := Store.length_erase_of_found host (CachedEntry.new now0 addrs ttl)
    s1.cache hnd1 hf
  rw [DnsCacheInner.get_eq_of_expired now1 host s1 _ hf hexp]
  refine ⟨rfl, Store.find?_erase_self host s1.cache, ?_⟩
  show (Store.erase host s1.cache).length = s1.cache.length - 1
  omega

/-- Witness for C4 at a concrete input. -/
theorem C4_witness :
    (DnsCacheInner.get 20 "k" (DnsCacheInner.insert_with_ttl 2 "k" [SocketAddr.mk 1 80] 10
        { cache := [], max_entries := 4 })).2 = none ∧
    Store.find? "k"
      (DnsCacheInner.get 20 "k" (DnsCacheInner.insert_with_ttl 2 "k" [SocketAddr.mk 1 80] 10
        { cache := [], max_entries := 4 })).1.cache = none ∧
    (DnsCacheInner.get 20 "k" (DnsCacheInner.insert_with_ttl 2 "k" [SocketAddr.mk 1 80] 10
        { cache := [], max_entries := 4 })).1.len
      = (DnsCacheInner.insert_with_ttl 2 "k" [SocketAddr.mk 1 80] 10
        { cache := [], max_entries := 4 }).len - 1 :=
  C4_expiry_get_removes 2 20 "k" [SocketAddr.mk 1 80] 10
    { cache := [], max_entries := 4 } (by decide) (by decide)

/-- C5 counterexample: with `max_entries = 0` and a store holding a single
expired entry, the store holds at least `max_entries` entries and the
post-sweep count (0) is still at or above `max_entries`, yet the code
removes no further entry (there is none), so no behaviour matches the
claim's "exactly one further entry is removed" — `insertPerClaim`, the
claim transcribed, has no result, while the code completes the insert. -/
theorem C5_counterexample_no_entry_to_evict :
    insertPerClaim 10 "b" [SocketAddr.mk 1 1] 5
        ⟨[("a", CachedEntry.mk [SocketAddr.mk 1 1] 5)], 0⟩ = none ∧
    DnsCacheInner.insert_with_ttl 10 "b" [SocketAddr.mk 1 1] 5
        ⟨[("a", CachedEntry.mk [SocketAddr.mk 1 1] 5)], 0⟩
      = ⟨[("b", CachedEntry.mk [SocketAddr.mk 1 1] 15)], 0⟩ := by
  decide

/-- C5 (amended): for every cache with `max_entries ≥ 1`, `insert_with_ttl`
behaves exactly as the claim describes: below capacity it only inserts
(overwriting the key's own entry at most); at or above capacity it first
removes every expired entry, then, only if the count is still at or above
`max_entries`, removes exactly one further (arbitrarily chosen) entry,
and then inserts the new entry unconditionally. -/
theorem C5_insert_follows_eviction_policy (now : Nat) (host : String)
    (addrs : List SocketAddr) (ttl : Nat) (c : DnsCacheInner)
    (hmax : 1 ≤ c.max_entries) :
    insertPerClaim now host addrs ttl c
      = some (DnsCacheInner.insert_with_ttl now host addrs ttl c) := by
  unfold insertPerClaim DnsCacheInner.insert_with_ttl DnsCacheInner.evictIfFull
  by_cases h1 : c.max_entries ≤ c.cache.length
  · have h1' : ¬ c.cache.length < c.max_entries := by omega
    simp only [h1, if_true, h1', if_false]
    by_cases h2 : c.max_entries ≤ (Store.sweep now c.cache).length
    · simp only [h2, if_true]
      cases hh : (Store.sweep now c.cache).head? with
      | some p => simp
      | none =>
        exfalso
        have hnil : Store.sweep now c.cache = [] := by simpa using hh
        rw [hnil] at h2
        simp at h2
        omega
    · simp only [h2, if_false]
  · have h1' : c.cache.length < c.max_entries := by omega
    simp only [h1, if_false, h1', if_true]

/-- Witness for C5 at a concrete full cache of capacity 1. -/
theorem C5_witness :
    insertPerClaim 0 "b" [SocketAddr.mk 2 2] 5
        ⟨[("a", CachedEntry.mk [SocketAddr.mk 1 1] 10)], 1⟩
      = some (DnsCacheInner.insert_with_ttl 0 "b" [SocketAddr.mk 2 2] 5
        ⟨[("a", CachedEntry.mk [SocketAddr.mk 1 1] 10)], 1⟩) :=
  C5_insert_follows_eviction_policy 0 "b" [SocketAddr.mk 2 2] 5
    ⟨[("a", CachedEntry.mk [SocketAddr.mk 1 1] 10)], 1⟩ (by decide)

/-- C6: when the adapter misses the cache and the external lookup returns
an empty result set, the empty result is returned, the cache state is
exactly the post-`get` state (nothing inserted), and any subsequent cache
`get` for that key returns `none`; when the external lookup fails, the
error is returned unchanged and nothing is inserted either. -/
theorem C6_adapter_empty_and_error (now dttl : Nat) (host : String)
    (s : DnsCacheInner) (e : LookupError)
    (hmiss : (DnsCacheInner.get now host s).2 = none) :
    (HickoryDnsResolver.resolve now host dttl (LookupOutcome.ok []) s).2
        = LookupOutcome.ok [] ∧
    (HickoryDnsResolver.resolve now host dttl (LookupOutcome.ok []) s).1
        = (DnsCacheInner.get now host s).1 ∧
    (∀ later : Nat,
      (DnsCacheInner.get later host
        (HickoryDnsResolver.resolve now host dttl (LookupOutcome.ok []) s).1).2 = none) ∧
    (HickoryDnsResolver.resolve now host dttl (LookupOutcome.err e) s).2
        = LookupOutcome.err e ∧
    (HickoryDnsResolver.resolve now host dttl (LookupOutcome.err e) s).1
        = (DnsCacheInner.get now host s).1 := by
  have hres : HickoryDnsResolver.resolve now host dttl (LookupOutcome.ok []) s
      = ((DnsCacheInner.get now host s).1, LookupOutcome.ok []) := by
    unfold HickoryDnsResolver.resolve
    simp [hmiss]
  have hres2 : HickoryDnsResolver.resolve now host dttl (LookupOutcome.err e) s
      = ((DnsCacheInner.get now host s).1, LookupOutcome.err e) := by
    unfold HickoryDnsResolver.resolve
    simp [hmiss]
  refine ⟨by rw [hres], by rw [hres], ?_, by rw [hres2], by rw [hres2]⟩
  intro later
  rw [hres]
  have habs := DnsCacheInner.get_none_find? now host s hmiss
  rw [DnsCacheInner.get_eq_of_absent later host _ habs]

/-- Witness for C6 at a concrete empty cache. -/
theorem C6_witness :
    (HickoryDnsResolver.resolve 0 "h" 60 (LookupOutcome.ok []) ⟨[], 3⟩).2
        = LookupOutcome.ok [] ∧
    (HickoryDnsResolver.resolve 0 "h" 60 (LookupOutcome.ok []) ⟨[], 3⟩).1
        = (DnsCacheInner.get 0 "h" (⟨[], 3⟩ : DnsCacheInner)).1 ∧
    (∀ later : Nat,
      (DnsCacheInner.get later "h"
        (HickoryDnsResolver.resolve 0 "h" 60 (LookupOutcome.ok []) ⟨[], 3⟩).1).2 = none) ∧
    (HickoryDnsResolver.resolve 0 "h" 60 (LookupOutcome.err ⟨7⟩) ⟨[], 3⟩).2
        = LookupOutcome.err ⟨7⟩ ∧
    (HickoryDnsResolver.resolve 0 "h" 60 (LookupOutcome.err ⟨7⟩) ⟨[], 3⟩).1
        = (DnsCacheInner.get 0 "h" (⟨[], 3⟩ : DnsCacheInner)).1 :=
  C6_adapter_empty_and_error 0 60 "h" ⟨[], 3⟩ ⟨7⟩ (by decide)

/-- C7: `cleanup_expired` is idempotent at a fixed current time: a second
call straight after a first removes zero entries and leaves the state of
the first call unchanged. -/
theorem C7_cleanup_idempotent (now : Nat) (s : DnsCacheInner) :
    DnsCacheInner.cleanup_expired now (DnsCacheInner.cleanup_expired now s).1
      = ((DnsCacheInner.cleanup_expired now s).1, 0) := by
  unfold DnsCacheInner.cleanup_expired
  simp [Store.sweep_idem]

/-- C8: `get` on a key absent from the store returns `none` and leaves the
whole cache state unchanged. -/
theorem C8_get_absent_no_change (now : Nat) (host : String) (s : DnsCacheInner)
    (habs : Store.find? host s.cache = none) :
    DnsCacheInner.get now host s = (s, none) :=
  DnsCacheInner.get_eq_of_absent now host s habs

/-- Witness for C8 at a concrete store without the queried key. -/
theorem C8_witness :
    DnsCacheInner.get 3 "y"
        ⟨[("x", CachedEntry.mk [SocketAddr.mk 9 9] 10)], 5⟩
      = (⟨[("x", CachedEntry.mk [SocketAddr.mk 9 9] 10)], 5⟩, none) :=
  C8_get_absent_no_change 3 "y"
    ⟨[("x", CachedEntry.mk [SocketAddr.mk 9 9] 10)], 5⟩ (by decide)

/-- C9: a store at capacity (`max_entries = 2`), no entry expired, both
keys live; inserting the already-present key `"b"` still evicts one
arbitrary entry — here the unrelated live key `"a"` — and the final count
is `max_entries - 1`. -/
theorem C9_insert_existing_key_can_evict_live_key :
    (⟨[("a", CachedEntry.mk [SocketAddr.mk 1 1] 100),
       ("b", CachedEntry.mk [SocketAddr.mk 2 2] 100)], 2⟩ : DnsCacheInner).len
      = (⟨[("a", CachedEntry.mk [SocketAddr.mk 1 1] 100),
          ("b", CachedEntry.mk [SocketAddr.mk 2 2] 100)], 2⟩ : DnsCacheInner).max_entries ∧
    (∀ p ∈ ([("a", CachedEntry.mk [SocketAddr.mk 1 1] 100),
             ("b", CachedEntry.mk [SocketAddr.mk 2 2] 100)] : Store),
      p.2.is_expired 0 = false) ∧
    Store.find? "b" [("a", CachedEntry.mk [SocketAddr.mk 1 1] 100),
        ("b", CachedEntry.mk [SocketAddr.mk 2 2] 100)] ≠ none ∧
    Store.find? "a"
        (DnsCacheInner.insert_with_ttl 0 "b" [SocketAddr.mk 3 3] 50
          ⟨[("a", CachedEntry.mk [SocketAddr.mk 1 1] 100),
            ("b", CachedEntry.mk [SocketAddr.mk 2 2] 100)], 2⟩).cache = none ∧
    (DnsCacheInner.insert_with_ttl 0 "b" [SocketAddr.mk 3 3] 50
        ⟨[("a", CachedEntry.mk [SocketAddr.mk 1 1] 100),
          ("b", CachedEntry.mk [SocketAddr.mk 2 2] 100)], 2⟩).len = 2 - 1 := by
  decide

/-- C10: in `cleanup_expired` the removed-entry count `before - after`
never underflows: the sweep only removes entries, so the length after is
at most the length before, and the count plus the remaining length gives
back the length before exactly. -/
theorem C10_cleanup_count_no_underflow (now : Nat) (s : DnsCacheInner) :
    (DnsCacheInner.cleanup_expired now s).1.len ≤ s.len ∧
    (DnsCacheInner.cleanup_expired now s).2 + (DnsCacheInner.cleanup_expired now s).1.len
      = s.len := by
  have h : (Store.sweep now s.cache).length ≤ s.cache.length :=
    Store.length_sweep_le now s.cache
  unfold DnsCacheInner.cleanup_expired DnsCacheInner.len
  simp only []
  constructor
  · exact h
  · omega
